import Mathlib

/-!
Verification of the fast-convolution filter bank (FCFB) core of the
sdrglue application, shallowly embedded from `src/sdrglue/src/fcfb/mod.rs`
and the host loop of `src/sdrglue/src/main.rs`.

Samples are embedded as real numbers (the code uses 32-bit floats) and
complex samples as complex numbers.  Vectors (`Vec<ComplexSample>`,
`Rc<[Sample]>`) are embedded as Lean lists.  The external FFT library
(`rustfft`) is embedded as an opaque-to-the-model function parameter
`fft : List ComplexSample → List ComplexSample`; the claims checked here
do not depend on the values an FFT produces, only (for some of them) on
the fact that an in-place transform preserves the buffer length, which is
taken as a hypothesis where needed.
-/

/-- Floating point type used for signal processing (`type Sample = f32`),
idealised as a real number. -/
abbrev Sample : Type := ℝ

/-- Complex floating point type used for signal processing
(`type ComplexSample = num_complex::Complex<Sample>`). -/
abbrev ComplexSample : Type := ℂ

/-- `InputBlockSize`: number of new samples and of overlapping samples in
each input block (`struct InputBlockSize`). -/
structure InputBlockSize where
  new : ℕ
  overlap : ℕ

/-- `InputBuffer::new`: allocates a buffer of `size.new + size.overlap`
complex samples, zero-initialized (`vec![ComplexSample::ZERO; ...]`).
The model keeps only the buffer contents; the block size is passed to the
operations explicitly. -/
def InputBuffer.new (size : InputBlockSize) : List ComplexSample :=
  List.replicate (size.new + size.overlap) 0

/-- `InputBuffer::prepare_for_new_samples`: moves the overlapping part
from the end of the previous block to the beginning, i.e.
`buffer.copy_within(new .. new+overlap, 0)`.  For a buffer of length
`new + overlap` the result is the trailing `overlap` samples followed by
everything from position `overlap` on (memmove semantics). -/
def InputBuffer.prepare_for_new_samples (size : InputBlockSize)
    (buffer : List ComplexSample) : List ComplexSample :=
  (buffer.drop size.new).take size.overlap ++ buffer.drop size.overlap

/-- Helper: `getD` at an in-range index is `getElem`. -/
theorem getD_eq_get {α : Type} (l : List α) (i : ℕ) (d : α) (h : i < l.length) :
    l.getD i d = l[i] := by
  simp [List.getD_eq_getElem?_getD, List.getElem?_eq_getElem h]

/-- C4: immediately after construction the whole input buffer of length
`new + overlap` is all zeros, and after a call to
`prepare_for_new_samples` on a buffer of the right length, every position
`i < overlap` of the new buffer equals position `new + i` of the buffer
as it was before the call. -/
theorem inputBuffer_overlap_invariant (size : InputBlockSize)
    (buffer : List ComplexSample)
    (hlen : buffer.length = size.new + size.overlap)
    (i : ℕ) (hi : i < size.overlap) :
    InputBuffer.new size = List.replicate (size.new + size.overlap) 0 ∧
    (InputBuffer.prepare_for_new_samples size buffer).getD i 0 =
      buffer.getD (size.new + i) 0 := by
  refine ⟨rfl, ?_⟩
  unfold InputBuffer.prepare_for_new_samples
  have hdl : (buffer.drop size.new).length = size.overlap := by
    simp [hlen]
  have hi' : i < ((buffer.drop size.new).take size.overlap).length := by
    simp [hdl]; omega
  rw [List.getD_eq_getElem?_getD, List.getElem?_append_left hi']
  simp [List.getElem?_take, hi, List.getElem?_drop]

/-- Closed-instance check for `inputBuffer_overlap_invariant`. -/
theorem inputBuffer_overlap_invariant_witness :
    ([0, 1, 2, 3] : List ComplexSample).length = 2 + 2 ∧ (0 : ℕ) < 2 ∧
    (InputBuffer.new ⟨2, 2⟩ = List.replicate (2 + 2) 0 ∧
      (InputBuffer.prepare_for_new_samples ⟨2, 2⟩ [0, 1, 2, 3]).getD 0 0 =
        ([0, 1, 2, 3] : List ComplexSample).getD (2 + 0) 0) :=
  ⟨by simp, by norm_num,
    inputBuffer_overlap_invariant ⟨2, 2⟩ [0, 1, 2, 3] (by simp) 0 (by norm_num)⟩

/-- C10: `prepare_for_new_samples` modifies only positions
`[0, overlap)`: every position in `[overlap, new + overlap)` holds the
same value after the call as before it. -/
theorem inputBuffer_frame (size : InputBlockSize)
    (buffer : List ComplexSample)
    (hlen : buffer.length = size.new + size.overlap)
    (i : ℕ) (hlo : size.overlap ≤ i) (hhi : i < size.new + size.overlap) :
    (InputBuffer.prepare_for_new_samples size buffer).getD i 0 =
      buffer.getD i 0 := by
  unfold InputBuffer.prepare_for_new_samples
  have hdl : ((buffer.drop size.new).take size.overlap).length = size.overlap := by
    simp [hlen]
  have h1 : ((buffer.drop size.new).take size.overlap).length ≤ i := by
    rw [hdl]; omega
  rw [List.getD_eq_getElem?_getD, List.getElem?_append_right h1]
  rw [hdl, List.getElem?_drop,
    (show size.overlap + (i - size.overlap) = i by omega),
    List.getD_eq_getElem?_getD]

/-- Closed-instance check for `inputBuffer_frame`. -/
theorem inputBuffer_frame_witness :
    ([0, 1, 2, 3] : List ComplexSample).length = 2 + 2 ∧ (2 : ℕ) ≤ 2 ∧ 2 < 2 + 2 ∧
    (InputBuffer.prepare_for_new_samples ⟨2, 2⟩ [0, 1, 2, 3]).getD 2 0 =
      ([0, 1, 2, 3] : List ComplexSample).getD 2 0 :=
  ⟨by simp, by norm_num, by norm_num,
    inputBuffer_frame ⟨2, 2⟩ [0, 1, 2, 3] (by simp) 2 (by norm_num) (by norm_num)⟩

/-- `bin_index_out` of `AnalysisOutputProcessor::process`:
`bin_number.rem_euclid(ifft_size as isize) as usize`. -/
def bin_index_out (ifft_size : ℕ) (bin_number : ℤ) : ℕ :=
  (bin_number % (ifft_size : ℤ)).toNat

/-- `bin_index_in` of `AnalysisOutputProcessor::process`:
`(center_bin + bin_number).rem_euclid(fft_size as isize) as usize`. -/
def bin_index_in (fft_size : ℕ) (center_bin bin_number : ℤ) : ℕ :=
  ((center_bin + bin_number) % (fft_size : ℤ)).toNat

/-- The weighting loop of `AnalysisOutputProcessor::process`:
`for bin_number in -half_size .. half_size { buffer[bin_index_out] =
weights[bin_index_out] * intermediate.fft_result[bin_index_in] }`,
where `half_size = (buffer.len() / 2) as isize`.  The signed loop
counter `bin_number` is `-half_size + i` for `i` running over the
`2 * half_size` iterations. -/
def analysisWriteLoop (fft_size : ℕ) (center_bin : ℤ) (weights : List Sample)
    (fft_result buffer : List ComplexSample) : List ComplexSample :=
  let ifft_size := buffer.length
  let half_size : ℤ := (ifft_size / 2 : ℕ)
  (List.range (2 * (ifft_size / 2))).foldl (fun buf (i : ℕ) =>
    let bin_number : ℤ := -half_size + (i : ℤ)
    buf.set (bin_index_out ifft_size bin_number)
      (((weights.getD (bin_index_out ifft_size bin_number) 0 : ℝ) : ℂ) *
        fft_result.getD (bin_index_in fft_size center_bin bin_number) 0)) buffer

/-- The output slice `&buffer[ifft_size/4 .. ifft_size/4 * 3]` used by
both `AnalysisOutputProcessor::process` and
`SynthesisOutputProcessor::process` ("Fixed overlap factor of 50% for
now"). -/
def output_slice (ifft_size : ℕ) (buffer : List ComplexSample) :
    List ComplexSample :=
  (buffer.drop (ifft_size / 4)).take (ifft_size / 4 * 3 - ifft_size / 4)

/-- `AnalysisOutputProcessor::process`: run the weighting loop over the
intermediate spectrum, apply the inverse transform in place, and return
(buffer after the transform, slice `buffer[ifft_size/4 .. ifft_size/4*3]`).
`ifft` stands for the in-place `rustfft` inverse transform plan. -/
def AnalysisOutputProcessor.process (ifft : List ComplexSample → List ComplexSample)
    (fft_size : ℕ) (center_bin : ℤ) (weights : List Sample)
    (fft_result buffer : List ComplexSample) :
    List ComplexSample × List ComplexSample :=
  let ifft_size := buffer.length
  let buffer2 := ifft (analysisWriteLoop fft_size center_bin weights fft_result buffer)
  (buffer2, output_slice ifft_size buffer2)

/-- Helper: a fold whose step preserves the length preserves the length. -/
theorem foldl_length_invariant {α β : Type} (f : List α → β → List α)
    (hf : ∀ b i, (f b i).length = b.length) :
    ∀ (l : List β) (b : List α), (l.foldl f b).length = b.length := by
  intro l
  induction l with
  | nil => intro b; rfl
  | cons x xs ih => intro b; rw [List.foldl_cons, ih, hf]

/-- Helper: the length of the buffer after the analysis weighting loop. -/
theorem analysisWriteLoop_length (fft_size : ℕ) (center_bin : ℤ)
    (weights : List Sample) (fft_result buffer : List ComplexSample) :
    (analysisWriteLoop fft_size center_bin weights fft_result buffer).length =
      buffer.length := by
  unfold analysisWriteLoop
  exact foldl_length_invariant _ (fun b i => by simp) _ _

/-- Helper: length of the output slice. -/
theorem output_slice_length (ifft_size : ℕ) (buffer : List ComplexSample)
    (h : buffer.length = ifft_size) :
    (output_slice ifft_size buffer).length =
      ifft_size / 4 * 3 - ifft_size / 4 := by
  unfold output_slice
  simp [h]
  omega

/-- Buffer states of the synthesis output processor
(`enum SynthesisBufferState`). -/
inductive SynthesisBufferState where
  | CLEAR
  | INPUT
  | OUTPUT
deriving DecidableEq

/-- `SynthesisIntermediateResult`: offset into the synthesis IFFT input
buffer plus the weighted, half-swapped sub-channel spectrum. -/
structure SynthesisIntermediateResult where
  offset : ℕ
  fft_result : List ComplexSample

/-- `SynthesisOutputProcessor`: the accumulator buffer and its state tag.
The IFFT plan is passed to `process` explicitly in the model. -/
structure SynthesisOutputProcessor where
  buffer : List ComplexSample
  buffer_state : SynthesisBufferState

/-- `SynthesisOutputProcessor::new`: zero buffer of length `ifft_size`,
state CLEAR. -/
def SynthesisOutputProcessor.new (ifft_size : ℕ) : SynthesisOutputProcessor :=
  ⟨List.replicate ifft_size 0, .CLEAR⟩

/-- `SynthesisOutputProcessor::clear`: zero every element of the buffer
and set state CLEAR. -/
def SynthesisOutputProcessor.clear (s : SynthesisOutputProcessor) :
    SynthesisOutputProcessor :=
  ⟨List.replicate s.buffer.length 0, .CLEAR⟩

/-- `SynthesisOutputProcessor::add`: if the previous result is still in
the buffer (state OUTPUT) clear it first, then add each element of the
intermediate result into `buffer[(offset + index).rem_euclid(ifft_size)]`
and set state INPUT. -/
def SynthesisOutputProcessor.add (s : SynthesisOutputProcessor)
    (ir : SynthesisIntermediateResult) : SynthesisOutputProcessor :=
  let s1 := if s.buffer_state = .OUTPUT then s.clear else s
  let ifft_size := s1.buffer.length
  ⟨(List.range ir.fft_result.length).foldl (fun buf (index : ℕ) =>
      buf.set ((ir.offset + index) % ifft_size)
        (buf.getD ((ir.offset + index) % ifft_size) 0 +
          ir.fft_result.getD index 0)) s1.buffer,
    .INPUT⟩

/-- `SynthesisOutputProcessor::process`: CLEAR keeps the zero buffer,
INPUT runs the inverse transform in place and moves to OUTPUT, OUTPUT
clears the stale result.  Returns the new state and the slice
`buffer[ifft_size/4 .. ifft_size/4*3]`. -/
def SynthesisOutputProcessor.process (ifft : List ComplexSample → List ComplexSample)
    (s : SynthesisOutputProcessor) :
    SynthesisOutputProcessor × List ComplexSample :=
  let s1 : SynthesisOutputProcessor :=
    match s.buffer_state with
    | .CLEAR => s
    | .INPUT => ⟨ifft s.buffer, .OUTPUT⟩
    | .OUTPUT => s.clear
  (s1, output_slice s1.buffer.length s1.buffer)

/-- C1 (counterexample): at `ifft_size = 6` (even, positive, not
divisible by 4) the returned slice `buffer[6/4 .. 6/4*3] = buffer[1..3]`
has 2 samples for both processors, while `ifft_size/2 = 3`; so the claim
that every even positive size yields `ifft_size/2` samples is false. -/
theorem output_length_counterexample :
    (AnalysisOutputProcessor.process id 6 0 (List.replicate 6 1)
      (List.replicate 6 0) (List.replicate 6 0)).snd.length = 2 ∧
    (SynthesisOutputProcessor.process id
      (SynthesisOutputProcessor.new 6)).snd.length = 2 ∧
    (2 : ℕ) ≠ 6 / 2 := by
  refine ⟨?_, ?_, by norm_num⟩
  · have h : (analysisWriteLoop 6 0 (List.replicate 6 1)
        (List.replicate 6 0) (List.replicate 6 0)).length = 6 := by
      rw [analysisWriteLoop_length]; simp
    have h2 := output_slice_length 6 _ h
    norm_num at h2
    simpa [AnalysisOutputProcessor.process] using h2
  · simp [SynthesisOutputProcessor.process, SynthesisOutputProcessor.new,
      output_slice]

/-- C1 (amended): for every `ifft_size` divisible by 4, the analysis
output processor and the synthesis output processor both return exactly
`ifft_size/2` samples per tick (for even sizes not divisible by 4 the
slice `buffer[ifft_size/4 .. ifft_size/4*3]` has `ifft_size/2 - 1`
samples instead). -/
theorem output_length_div4 (ifft : List ComplexSample → List ComplexSample)
    (hifft : ∀ l, (ifft l).length = l.length)
    (n fft_size : ℕ) (hn4 : n % 4 = 0) (hpos : 0 < n)
    (center_bin : ℤ) (weights : List Sample)
    (fft_result buffer : List ComplexSample) (hbuf : buffer.length = n)
    (s : SynthesisOutputProcessor) (hs : s.buffer.length = n) :
    (AnalysisOutputProcessor.process ifft fft_size center_bin weights
      fft_result buffer).snd.length = n / 2 ∧
    (SynthesisOutputProcessor.process ifft s).snd.length = n / 2 := by
  constructor
  · have h2 : (ifft (analysisWriteLoop fft_size center_bin weights
        fft_result buffer)).length = n := by
      rw [hifft, analysisWriteLoop_length, hbuf]
    show (output_slice buffer.length _).length = n / 2
    rw [hbuf, output_slice_length n _ h2]
    omega
  · have hlen : ((SynthesisOutputProcessor.process ifft s).fst).buffer.length = n := by
      unfold SynthesisOutputProcessor.process
      cases hst : s.buffer_state <;>
        simp [hst, SynthesisOutputProcessor.clear, hifft, hs]
    show (output_slice ((SynthesisOutputProcessor.process ifft s).fst).buffer.length
      ((SynthesisOutputProcessor.process ifft s).fst).buffer).length = n / 2
    rw [output_slice_length _ _ rfl, hlen]
    omega

/-- Closed-instance check for `output_length_div4`. -/
theorem output_length_div4_witness :
    (AnalysisOutputProcessor.process id 4 0 (List.replicate 4 1)
      (List.replicate 4 0) (List.replicate 4 0)).snd.length = 4 / 2 ∧
    (SynthesisOutputProcessor.process id
      (SynthesisOutputProcessor.new 4)).snd.length = 4 / 2 :=
  output_length_div4 id (fun l => rfl) 4 4 (by norm_num) (by norm_num)
    0 (List.replicate 4 1) (List.replicate 4 0) (List.replicate 4 0) (by simp)
    (SynthesisOutputProcessor.new 4) (by simp [SynthesisOutputProcessor.new])

/-- Predicate: every sample of the list is zero. -/
def allZero (l : List ComplexSample) : Prop := ∀ x ∈ l, x = 0

/-- States of a synthesis output processor reachable through its public
operations (`new`, `clear`, `add`, `process`), driving `process` with a
fixed inverse transform plan `ifft`. -/
inductive SynthesisReachable (ifft : List ComplexSample → List ComplexSample) :
    SynthesisOutputProcessor → Prop where
  | new (ifft_size : ℕ) :
      SynthesisReachable ifft (SynthesisOutputProcessor.new ifft_size)
  | clear (s : SynthesisOutputProcessor) :
      SynthesisReachable ifft s → SynthesisReachable ifft s.clear
  | add (s : SynthesisOutputProcessor) (ir : SynthesisIntermediateResult) :
      SynthesisReachable ifft s → SynthesisReachable ifft (s.add ir)
  | process (s : SynthesisOutputProcessor) :
      SynthesisReachable ifft s →
      SynthesisReachable ifft (s.process ifft).fst

/-- Helper: in every reachable state, the state tag CLEAR means the
buffer really is all zeros (the comment contract of
`SynthesisBufferState::CLEAR`). -/
theorem reachable_clear_buffer (ifft : List ComplexSample → List ComplexSample)
    (s : SynthesisOutputProcessor) (h : SynthesisReachable ifft s) :
    s.buffer_state = .CLEAR → s.buffer = List.replicate s.buffer.length 0 := by
  induction h with
  | new n => intro _; simp [SynthesisOutputProcessor.new]
  | clear s h ih => intro _; simp [SynthesisOutputProcessor.clear]
  | add s ir h ih =>
      intro hc
      simp [SynthesisOutputProcessor.add] at hc
  | process s h ih =>
      intro hc
      cases hst : s.buffer_state with
      | CLEAR =>
          simp only [SynthesisOutputProcessor.process, hst]
          exact ih hst
      | INPUT =>
          simp [SynthesisOutputProcessor.process, hst] at hc
      | OUTPUT =>
          simp [SynthesisOutputProcessor.process, hst,
            SynthesisOutputProcessor.clear]

/-- Helper: the middle-half slice of an all-zero buffer is all zeros. -/
theorem allZero_output_slice_replicate (n m : ℕ) :
    allZero (output_slice n (List.replicate m 0)) := by
  intro x hx
  unfold output_slice at hx
  rw [List.drop_replicate, List.take_replicate] at hx
  exact (List.eq_of_mem_replicate hx)

/-- C5: for every reachable synthesis output processor state, if `add`
is not called between two consecutive `process` calls, the second
`process` returns all-zero samples (covering both the CLEAR path, where
no transform runs, and the OUTPUT path, where the stale buffer is
cleared before returning). -/
theorem synthesis_idle_zero (ifft : List ComplexSample → List ComplexSample)
    (s : SynthesisOutputProcessor) (h : SynthesisReachable ifft s) :
    allZero ((((s.process ifft).fst).process ifft).snd) := by
  cases hst : s.buffer_state with
  | CLEAR =>
      have hbuf := reachable_clear_buffer ifft s h hst
      simp only [SynthesisOutputProcessor.process, hst]
      rw [hbuf]
      exact allZero_output_slice_replicate _ _
  | INPUT =>
      simp only [SynthesisOutputProcessor.process, hst,
        SynthesisOutputProcessor.clear]
      exact allZero_output_slice_replicate _ _
  | OUTPUT =>
      simp only [SynthesisOutputProcessor.process, hst,
        SynthesisOutputProcessor.clear]
      exact allZero_output_slice_replicate _ _

/-- Closed-instance check for `synthesis_idle_zero`. -/
theorem synthesis_idle_zero_witness :
    allZero (((( SynthesisOutputProcessor.new 4).process id).fst.process id).snd) :=
  synthesis_idle_zero id (SynthesisOutputProcessor.new 4)
    (SynthesisReachable.new 4)

/-- Helper: reading a just-set index. -/
theorem getD_set_eq {α : Type} (l : List α) (i : ℕ) (x d : α)
    (h : i < l.length) : (l.set i x).getD i d = x := by
  simp [List.getD_eq_getElem?_getD, List.getElem?_set_self, h]

/-- Helper: reading another index after a set. -/
theorem getD_set_ne {α : Type} (l : List α) (i j : ℕ) (x d : α)
    (h : i ≠ j) : (l.set i x).getD j d = l.getD j d := by
  simp [List.getD_eq_getElem?_getD, List.getElem?_set_ne h]

/-- Helper: a left fold over `range m` writing value `v i` at index `g i`
ends with `v i` at position `g i` when `g` is injective on the range. -/
theorem foldl_range_set_getD {α : Type} (g : ℕ → ℕ) (v : ℕ → α) (d : α) :
    ∀ (m : ℕ) (b : List α),
      (∀ i j, i < m → j < m → g i = g j → i = j) →
      ∀ i, i < m → g i < b.length →
      ((List.range m).foldl (fun b j => b.set (g j) (v j)) b).getD (g i) d = v i := by
  intro m
  induction m with
  | zero => intro b _ i hi; omega
  | succ m ih =>
      intro b hinj i hi hr
      rw [List.range_succ, List.foldl_append, List.foldl_cons, List.foldl_nil]
      have hflen : ((List.range m).foldl (fun b j => b.set (g j) (v j)) b).length
          = b.length :=
        foldl_length_invariant _ (fun b i => by simp) _ _
      by_cases him : i = m
      · subst him
        exact getD_set_eq _ _ _ _ (by rw [hflen]; exact hr)
      · have hne : g m ≠ g i := fun h =>
          him (hinj i m hi (Nat.lt_succ_self m) h.symm)
        rw [getD_set_ne _ _ _ _ _ hne]
        exact ih b (fun a c ha hc h => hinj a c (by omega) (by omega) h)
          i (by omega) hr

/-- Helper: closed form of the destination index map of the analysis
weighting loop.  For even positive `n` and iteration `i < n` (so signed
bin offset `i - n/2`), the destination is `i + n/2` for the negative
offsets and `i - n/2` for the non-negative ones. -/
theorem bin_index_out_closed (n i : ℕ) (heven : n % 2 = 0) (hpos : 0 < n)
    (hi : i < n) :
    bin_index_out n (-((n / 2 : ℕ) : ℤ) + (i : ℤ)) =
      if i < n / 2 then i + n / 2 else i - n / 2 := by
  unfold bin_index_out
  by_cases h : i < n / 2
  · rw [show -((n / 2 : ℕ) : ℤ) + (i : ℤ) = ((i + n / 2 : ℕ) : ℤ) + (n : ℤ) * (-1) by
        push_cast; omega,
      Int.add_mul_emod_self_left,
      Int.emod_eq_of_lt (by omega) (by omega)]
    simp only [if_pos h]
    omega
  · rw [show -((n / 2 : ℕ) : ℤ) + (i : ℤ) = ((i - n / 2 : ℕ) : ℤ) by omega,
      Int.emod_eq_of_lt (by omega) (by omega)]
    simp only [if_neg h]
    omega

/-- The list of destination indices written by one call of the analysis
weighting loop, in iteration order. -/
def analysisOutIndices (ifft_size : ℕ) : List ℕ :=
  (List.range (2 * (ifft_size / 2))).map (fun (i : ℕ) =>
    bin_index_out ifft_size (-((ifft_size / 2 : ℕ) : ℤ) + (i : ℤ)))

/-- C3: before the inverse transform, the analysis weighting loop writes
`weights[k mod ifft_size] * intermediate[(center_bin + k) mod fft_size]`
into `buffer[k mod ifft_size]` for every signed bin offset
`k ∈ [-ifft_size/2, ifft_size/2)` (Euclidean modulo), and the loop
writes every index of the buffer exactly once: its destination index
list has no duplicates and contains every index `d < ifft_size`. -/
theorem analysis_bin_mapping (fft_size : ℕ) (center_bin : ℤ)
    (weights : List Sample) (fft_result buffer : List ComplexSample)
    (heven : buffer.length % 2 = 0) (hpos : 0 < buffer.length)
    (hw : weights.length = buffer.length)
    (hnf : buffer.length ≤ fft_size)
    (hfr : fft_result.length = fft_size)
    (k : ℤ) (hk1 : -((buffer.length / 2 : ℕ) : ℤ) ≤ k)
    (hk2 : k < ((buffer.length / 2 : ℕ) : ℤ))
    (d : ℕ) (hd : d < buffer.length) :
    (analysisWriteLoop fft_size center_bin weights fft_result buffer).getD
        (bin_index_out buffer.length k) 0 =
      ((weights.getD (bin_index_out buffer.length k) 0 : ℝ) : ℂ) *
        fft_result.getD (bin_index_in fft_size center_bin k) 0 ∧
    (analysisOutIndices buffer.length).Nodup ∧
    d ∈ analysisOutIndices buffer.length := by
  have hinj : ∀ i j, i < 2 * (buffer.length / 2) → j < 2 * (buffer.length / 2) →
      bin_index_out buffer.length (-((buffer.length / 2 : ℕ) : ℤ) + (i : ℤ)) =
        bin_index_out buffer.length (-((buffer.length / 2 : ℕ) : ℤ) + (j : ℤ)) →
      i = j := by
    intro i j hi hj hgij
    rw [bin_index_out_closed _ _ heven hpos (by omega),
      bin_index_out_closed _ _ heven hpos (by omega)] at hgij
    split_ifs at hgij <;> omega
  refine ⟨?_, ?_, ?_⟩
  · have hi : (k + ((buffer.length / 2 : ℕ) : ℤ)).toNat < 2 * (buffer.length / 2) := by
      omega
    have hk' : k = -((buffer.length / 2 : ℕ) : ℤ) +
        (((k + ((buffer.length / 2 : ℕ) : ℤ)).toNat : ℕ) : ℤ) := by omega
    rw [hk']
    have hr : bin_index_out buffer.length (-((buffer.length / 2 : ℕ) : ℤ) +
        (((k + ((buffer.length / 2 : ℕ) : ℤ)).toNat : ℕ) : ℤ)) < buffer.length := by
      rw [bin_index_out_closed _ _ heven hpos (by omega)]
      split_ifs <;> omega
    exact foldl_range_set_getD
      (fun j => bin_index_out buffer.length (-((buffer.length / 2 : ℕ) : ℤ) + (j : ℤ)))
      (fun j => ((weights.getD
          (bin_index_out buffer.length (-((buffer.length / 2 : ℕ) : ℤ) + (j : ℤ))) 0 : ℝ) : ℂ) *
        fft_result.getD
          (bin_index_in fft_size center_bin (-((buffer.length / 2 : ℕ) : ℤ) + (j : ℤ))) 0)
      0 (2 * (buffer.length / 2)) buffer hinj _ hi hr
  · unfold analysisOutIndices
    exact (List.nodup_range _).map_on
      (fun x hx y hy hxy =>
        hinj x y (List.mem_range.mp hx) (List.mem_range.mp hy) hxy)
  · unfold analysisOutIndices
    apply List.mem_map.mpr
    refine ⟨if d < buffer.length / 2 then d + buffer.length / 2
      else d - buffer.length / 2, ?_, ?_⟩
    · apply List.mem_range.mpr; split_ifs <;> omega
    · rw [bin_index_out_closed _ _ heven hpos (by split_ifs <;> omega)]
      split_ifs <;> omega

/-- Closed-instance check for `analysis_bin_mapping`. -/
theorem analysis_bin_mapping_witness :
    (analysisWriteLoop 2 0 [1, 1] [0, 0] [0, 0]).getD (bin_index_out 2 0) 0 =
      ((([1, 1] : List Sample).getD (bin_index_out 2 0) 0 : ℝ) : ℂ) *
        ([0, 0] : List ComplexSample).getD (bin_index_in 2 0 0) 0 ∧
    (analysisOutIndices 2).Nodup ∧ 0 ∈ analysisOutIndices 2 :=
  analysis_bin_mapping 2 0 [1, 1] [0, 0] [0, 0] (by norm_num) (by norm_num)
    (by norm_num) (by norm_num) (by norm_num) 0 (by decide) (by decide)
    0 (by norm_num)

/-- Helper: the wideband source index is invariant under shifting the
center bin by a multiple of the FFT size. -/
theorem bin_index_in_mod (fft_size : ℕ) (center_bin m b : ℤ) :
    bin_index_in fft_size (center_bin + m * (fft_size : ℤ)) b =
      bin_index_in fft_size center_bin b := by
  unfold bin_index_in
  congr 1
  rw [show center_bin + m * (fft_size : ℤ) + b
      = (center_bin + b) + (fft_size : ℤ) * m by ring]
  simp [Int.add_mul_emod_self_left]

/-- C8: two analysis output processors identical except that their
center bins differ by an integer multiple of `fft_size` (same weights,
same `ifft_size`) produce element-equal outputs on the same
intermediate spectrum. -/
theorem analysis_center_bin_mod (ifft : List ComplexSample → List ComplexSample)
    (fft_size : ℕ) (center_bin m : ℤ) (weights : List Sample)
    (fft_result buffer : List ComplexSample) :
    AnalysisOutputProcessor.process ifft fft_size
        (center_bin + m * (fft_size : ℤ)) weights fft_result buffer =
      AnalysisOutputProcessor.process ifft fft_size center_bin weights
        fft_result buffer := by
  have hloop : analysisWriteLoop fft_size (center_bin + m * (fft_size : ℤ))
      weights fft_result buffer
      = analysisWriteLoop fft_size center_bin weights fft_result buffer := by
    unfold analysisWriteLoop
    simp only [bin_index_in_mod]
  unfold AnalysisOutputProcessor.process
  rw [hloop]

/-- `Vec::swap(i, j)` on a list (indices in range). -/
def listSwap (l : List ComplexSample) (i j : ℕ) : List ComplexSample :=
  (l.set i (l.getD j 0)).set j (l.getD i 0)

/-- The half-swap loop of `SynthesisInputProcessor::process`:
`for i in 0 .. fft_size_half { fft_result.swap(i, fft_size_half + i) }`
with `fft_size_half = fft_result.len() / 2`. -/
def swapHalvesLoop (l : List ComplexSample) : List ComplexSample :=
  let fft_size_half := l.length / 2
  (List.range fft_size_half).foldl
    (fun b (i : ℕ) => listSwap b i (fft_size_half + i)) l

/-- The element-wise weighting of `SynthesisInputProcessor::process`:
`for (value, weight) in fft_result.iter_mut().zip(weights.iter())
{ *value *= weight }`.  The zip stops at the shorter sequence, so
elements beyond `weights.len()` are unchanged. -/
def applyWeights (v : List ComplexSample) (w : List Sample) : List ComplexSample :=
  (List.zipWith (fun x (c : ℝ) => x * (c : ℂ)) v w) ++ v.drop w.length

/-- The deposit offset computed by `SynthesisInputProcessor::new`:
`(center_bin - (fft_size / 2) as isize).rem_euclid(ifft_size as isize)
as usize` with `fft_size = weights.len()`. -/
def SynthesisInputProcessor.new_offset (output_ifft_size : ℕ)
    (center_bin : ℤ) (fft_size : ℕ) : ℕ :=
  ((center_bin - ((fft_size / 2 : ℕ) : ℤ)) % (output_ifft_size : ℤ)).toNat

/-- `SynthesisInputProcessor::process`: copy the input into the FFT
buffer, forward-transform it in place, multiply element-wise by the
weights, then swap the halves.  `fft` stands for the in-place `rustfft`
forward transform plan. -/
def SynthesisInputProcessor.process
    (fft : List ComplexSample → List ComplexSample)
    (weights : List Sample) (input : List ComplexSample) :
    List ComplexSample :=
  swapHalvesLoop (applyWeights (fft input) weights)

/-- Helper: `listSwap` preserves the length. -/
theorem listSwap_length (l : List ComplexSample) (i j : ℕ) :
    (listSwap l i j).length = l.length := by
  simp [listSwap]

/-- Helper: pointwise description of the first `t` iterations of the
half-swap loop.  Positions below `t` hold the old upper half, positions
`[half, half + t)` hold the old lower half, everything else is
unchanged. -/
theorem swapLoop_partial_getD (l : List ComplexSample) :
    ∀ t, t ≤ l.length / 2 → ∀ k, k < l.length →
      (((List.range t).foldl
          (fun b (i : ℕ) => listSwap b i (l.length / 2 + i)) l).getD k 0) =
        if k < t then l.getD (l.length / 2 + k) 0
        else if l.length / 2 ≤ k ∧ k < l.length / 2 + t then
          l.getD (k - l.length / 2) 0
        else l.getD k 0 := by
  intro t
  induction t with
  | zero =>
      intro _ k hk
      simp only [List.range_zero, List.foldl_nil]
      have h1 : ¬(k < 0) := by omega
      have h2 : ¬(l.length / 2 ≤ k ∧ k < l.length / 2 + 0) := by omega
      rw [if_neg h1, if_neg h2]
  | succ t ih =>
      intro ht k hk
      have ht' : t ≤ l.length / 2 := by omega
      rw [List.range_succ, List.foldl_append, List.foldl_cons, List.foldl_nil]
      set F := (List.range t).foldl
          (fun b (i : ℕ) => listSwap b i (l.length / 2 + i)) l with hF
      have hflen : F.length = l.length :=
        foldl_length_invariant _ (fun b i => listSwap_length b _ _) _ _
      have hrt : F.getD t 0 = l.getD t 0 := by
        rw [hF, ih ht' t (by omega)]
        have h1 : ¬(t < t) := by omega
        have h2 : ¬(l.length / 2 ≤ t ∧ t < l.length / 2 + t) := by omega
        rw [if_neg h1, if_neg h2]
      have hrht : F.getD (l.length / 2 + t) 0 = l.getD (l.length / 2 + t) 0 := by
        rw [hF, ih ht' (l.length / 2 + t) (by omega)]
        have h1 : ¬(l.length / 2 + t < t) := by omega
        have h2 : ¬(l.length / 2 ≤ l.length / 2 + t ∧
            l.length / 2 + t < l.length / 2 + t) := by omega
        rw [if_neg h1, if_neg h2]
      show (listSwap F t (l.length / 2 + t)).getD k 0 = _
      unfold listSwap
      rw [hrt, hrht]
      by_cases hk1 : k = l.length / 2 + t
      · subst hk1
        rw [getD_set_eq _ _ _ _ (by simp [hflen]; omega)]
        have h1 : ¬(l.length / 2 + t < t + 1) := by omega
        have h2 : l.length / 2 ≤ l.length / 2 + t ∧
            l.length / 2 + t < l.length / 2 + (t + 1) := by omega
        rw [if_neg h1, if_pos h2]
        congr 1
        omega
      · rw [getD_set_ne _ _ _ _ _ (fun h => hk1 h.symm)]
        by_cases hk2 : k = t
        · subst hk2
          rw [getD_set_eq _ _ _ _ (by rw [hflen]; omega)]
          rw [if_pos (by omega : k < k + 1)]
        · rw [getD_set_ne _ _ _ _ _ (fun h => hk2 h.symm)]
          rw [ih ht' k hk]
          by_cases c1 : k < t
          · rw [if_pos c1, if_pos (by omega : k < t + 1)]
          · rw [if_neg c1, if_neg (by omega : ¬(k < t + 1))]
            by_cases c2 : l.length / 2 ≤ k ∧ k < l.length / 2 + t
            · rw [if_pos c2, if_pos (by omega : l.length / 2 ≤ k ∧
                k < l.length / 2 + (t + 1))]
            · rw [if_neg c2, if_neg (by omega : ¬(l.length / 2 ≤ k ∧
                k < l.length / 2 + (t + 1)))]

/-- Helper: the weighting pass keeps the buffer length. -/
theorem applyWeights_length (v : List ComplexSample) (w : List Sample) :
    (applyWeights v w).length = v.length := by
  simp [applyWeights]
  omega

/-- Helper: pointwise value of the weighting pass inside the zipped
range. -/
theorem applyWeights_getD (v : List ComplexSample) (w : List Sample)
    (j : ℕ) (hjv : j < v.length) (hjw : j < w.length) :
    (applyWeights v w).getD j 0 = v.getD j 0 * ((w.getD j 0 : ℝ) : ℂ) := by
  unfold applyWeights
  have hz : j < (List.zipWith (fun x (c : ℝ) => x * (c : ℂ)) v w).length := by
    simp; omega
  rw [List.getD_eq_getElem?_getD, List.getElem?_append_left hz,
    ← List.getD_eq_getElem?_getD]
  rw [getD_eq_get _ _ _ hz, List.getElem_zipWith,
    getD_eq_get _ _ _ hjv, getD_eq_get _ _ _ hjw]

/-- C6: the deposit offset computed at construction of a synthesis
input processor equals `(center_bin - fft_size/2) mod ifft_size`
(Euclidean modulo, `fft_size = weights.len()`), and `process` forward
transforms the input, multiplies element `i` by `weights[i]`, and swaps
the halves so that the element previously at index `i` ends up at index
`(i + fft_size/2) mod fft_size`. -/
theorem synthesis_input_characterization
    (fft : List ComplexSample → List ComplexSample)
    (hfft : ∀ l, (fft l).length = l.length)
    (output_ifft_size : ℕ) (center_bin : ℤ) (weights : List Sample)
    (input : List ComplexSample)
    (heven : weights.length % 2 = 0) (hin : input.length = weights.length)
    (i : ℕ) (hi : i < weights.length) :
    SynthesisInputProcessor.new_offset output_ifft_size center_bin weights.length
      = ((center_bin - ((weights.length / 2 : ℕ) : ℤ))
          % (output_ifft_size : ℤ)).toNat ∧
    (SynthesisInputProcessor.process fft weights input).getD
        ((i + weights.length / 2) % weights.length) 0 =
      (fft input).getD i 0 * ((weights.getD i 0 : ℝ) : ℂ) := by
  refine ⟨rfl, ?_⟩
  have hflen : (fft input).length = weights.length := by rw [hfft, hin]
  set a := applyWeights (fft input) weights with ha
  have halen : a.length = weights.length := by
    rw [ha, applyWeights_length, hflen]
  have hk : (i + weights.length / 2) % weights.length < weights.length :=
    Nat.mod_lt _ (by omega)
  show ((List.range (a.length / 2)).foldl
      (fun b (j : ℕ) => listSwap b j (a.length / 2 + j)) a).getD
      ((i + weights.length / 2) % weights.length) 0 = _
  rw [swapLoop_partial_getD a (a.length / 2) le_rfl _ (by rw [halen]; exact hk)]
  rw [halen]
  by_cases hc : i < weights.length / 2
  · have hmod : (i + weights.length / 2) % weights.length
        = i + weights.length / 2 := Nat.mod_eq_of_lt (by omega)
    rw [hmod, if_neg (by omega), if_pos (by omega),
      show i + weights.length / 2 - weights.length / 2 = i by omega]
    exact applyWeights_getD _ _ i (by omega) hi
  · have hmod : (i + weights.length / 2) % weights.length
        = i - weights.length / 2 := by
      rw [show i + weights.length / 2
          = weights.length + (i - weights.length / 2) by omega,
        Nat.add_mod_left, Nat.mod_eq_of_lt (by omega)]
    rw [hmod, if_pos (by omega),
      show weights.length / 2 + (i - weights.length / 2) = i by omega]
    exact applyWeights_getD _ _ i (by omega) hi

/-- Closed-instance check for `synthesis_input_characterization`. -/
theorem synthesis_input_characterization_witness :
    SynthesisInputProcessor.new_offset 8 2 ([1, 1] : List Sample).length
      = ((2 - ((([1, 1] : List Sample).length / 2 : ℕ) : ℤ)) % (8 : ℤ)).toNat ∧
    (SynthesisInputProcessor.process id [1, 1] [1, 0]).getD
        ((0 + ([1, 1] : List Sample).length / 2)
          % ([1, 1] : List Sample).length) 0 =
      (id [1, 0] : List ComplexSample).getD 0 0 *
        ((([1, 1] : List Sample).getD 0 0 : ℝ) : ℂ) :=
  synthesis_input_characterization id (fun l => rfl) 8 2 [1, 1] [1, 0]
    (by norm_num) (by norm_num) 0 (by norm_num)

/-- The passband loop of `raised_cosine_weights`:
`for i in 0..passband_half { weights[i] = 1.0;
if i != 0 { weights[ifft_size - i] = 1.0 } }`. -/
def rcPassbandLoop (ifft_size passband_half : ℕ) (weights : List Sample) :
    List Sample :=
  (List.range passband_half).foldl (fun w (i : ℕ) =>
    let w2 := w.set i 1
    if i ≠ 0 then w2.set (ifft_size - i) 1 else w2) weights

/-- The transition loop of `raised_cosine_weights`:
`for i in 0..transition_bins { let v = 0.5 + 0.5*cos(PI*(i+1)/(t+1));
let j = passband_half + i; weights[j] = v;
if j != 0 { weights[ifft_size - j] = v } }`. -/
noncomputable def rcTransitionLoop (ifft_size passband_half transition_bins : ℕ)
    (weights : List Sample) : List Sample :=
  (List.range transition_bins).foldl (fun w (i : ℕ) =>
    let v : ℝ := 0.5 + 0.5 * Real.cos (Real.pi * ((i + 1 : ℕ) : ℝ)
      / ((transition_bins + 1 : ℕ) : ℝ))
    let j := passband_half + i
    let w2 := w.set j v
    if j ≠ 0 then w2.set (ifft_size - j) v else w2) weights

/-- `transition_bins_` of `raised_cosine_weights`:
`transition_bins.unwrap_or(default_max_transition.min(ifft_size/2 - 1))`
with `default_max_transition = 15`. -/
def rc_transition_bins (ifft_size : ℕ) (transition_bins : Option ℕ) : ℕ :=
  transition_bins.getD (min 15 (ifft_size / 2 - 1))

/-- `passband_half` of `raised_cosine_weights`:
`passband_bins.unwrap_or(ifft_size - 2 - 2*transition_bins_) / 2 + 1`. -/
def rc_passband_half (ifft_size : ℕ)
    (passband_bins transition_bins : Option ℕ) : ℕ :=
  passband_bins.getD
    (ifft_size - 2 - 2 * rc_transition_bins ifft_size transition_bins) / 2 + 1

/-- `raised_cosine_weights`: start from a zero vector of length
`ifft_size`, run the passband loop, then the transition loop. -/
noncomputable def raised_cosine_weights (ifft_size : ℕ)
    (passband_bins transition_bins : Option ℕ) : List Sample :=
  rcTransitionLoop ifft_size
    (rc_passband_half ifft_size passband_bins transition_bins)
    (rc_transition_bins ifft_size transition_bins)
    (rcPassbandLoop ifft_size
      (rc_passband_half ifft_size passband_bins transition_bins)
      (List.replicate ifft_size 0))

/-- Common shape of the two `raised_cosine_weights` loops: iteration `i`
writes `f i` at index `s + i` and, unless that index is 0, also at the
mirror index `n - (s + i)`. -/
def mirrorWrites (n s : ℕ) (f : ℕ → ℝ) (m : ℕ) (w : List Sample) :
    List Sample :=
  (List.range m).foldl (fun w2 (i : ℕ) =>
    if s + i ≠ 0 then (w2.set (s + i) (f i)).set (n - (s + i)) (f i)
    else w2.set (s + i) (f i)) w

/-- Helper: the passband loop is a mirror-write loop with offset 0 and
constant value 1. -/
theorem rcPassbandLoop_eq_mirror (n ph : ℕ) (w : List Sample) :
    rcPassbandLoop n ph w = mirrorWrites n 0 (fun _ => 1) ph w := by
  unfold rcPassbandLoop mirrorWrites
  congr 1
  funext w2 i
  simp only [Nat.zero_add]

/-- Helper: the transition loop is a mirror-write loop with offset
`passband_half` and the raised-cosine transition values. -/
theorem rcTransitionLoop_eq_mirror (n ph t : ℕ) (w : List Sample) :
    rcTransitionLoop n ph t w = mirrorWrites n ph
      (fun i => 0.5 + 0.5 * Real.cos (Real.pi * ((i + 1 : ℕ) : ℝ)
        / ((t + 1 : ℕ) : ℝ))) t w := by
  unfold rcTransitionLoop mirrorWrites
  congr 1

/-- Helper: mirror-write loops preserve the length. -/
theorem mirrorWrites_length (n s : ℕ) (f : ℕ → ℝ) (m : ℕ) (w : List Sample) :
    (mirrorWrites n s f m w).length = w.length := by
  unfold mirrorWrites
  exact foldl_length_invariant _
    (fun b i => by by_cases h : s + i ≠ 0 <;> simp [h]) _ _

/-- Helper: pointwise description of a mirror-write loop.  Direct writes
cover `[s, s + m)`, mirror writes cover `(n - (s + m), n - s]` (the
skipped mirror of index 0 would land at `n`, outside the buffer), and
everything else is untouched.  Requires `s + m ≤ n/2` (which holds in
`raised_cosine_weights` by its assertion) so the regions are disjoint. -/
theorem mirrorWrites_getD (n s : ℕ) (f : ℕ → ℝ) :
    ∀ (m : ℕ) (w : List Sample), w.length = n → s + m ≤ n / 2 → n % 2 = 0 →
      ∀ k, k < n →
      (mirrorWrites n s f m w).getD k 0 =
        if s ≤ k ∧ k < s + m then f (k - s)
        else if n - (s + m) < k ∧ k ≤ n - s then f (n - k - s)
        else w.getD k 0 := by
  intro m
  induction m with
  | zero =>
      intro w hw hsm heven k hk
      unfold mirrorWrites
      simp only [List.range_zero, List.foldl_nil]
      rw [if_neg (by omega), if_neg (by omega)]
  | succ m ih =>
      intro w hw hsm heven k hk
      unfold mirrorWrites
      rw [List.range_succ, List.foldl_append, List.foldl_cons, List.foldl_nil]
      show (if s + m ≠ 0 then
          ((mirrorWrites n s f m w).set (s + m) (f m)).set (n - (s + m)) (f m)
        else (mirrorWrites n s f m w).set (s + m) (f m)).getD k 0 = _
      have hFlen : (mirrorWrites n s f m w).length = n := by
        rw [mirrorWrites_length, hw]
      have hFget := ih w hw (by omega) heven k hk
      by_cases h0 : s + m ≠ 0
      · rw [if_pos h0]
        by_cases hk1 : k = n - (s + m)
        · subst hk1
          rw [getD_set_eq _ _ _ _ (by simp [hFlen]; omega)]
          rw [if_neg (by omega), if_pos (by omega)]
          congr 1
          omega
        · rw [getD_set_ne _ _ _ _ _ (fun h => hk1 h.symm)]
          by_cases hk2 : k = s + m
          · subst hk2
            rw [getD_set_eq _ _ _ _ (by rw [hFlen]; omega)]
            rw [if_pos (by omega)]
            congr 1
            omega
          · rw [getD_set_ne _ _ _ _ _ (fun h => hk2 h.symm), hFget]
            split_ifs <;> first | rfl | omega | (exfalso; omega)
      · rw [if_neg h0]
        by_cases hk2 : k = s + m
        · subst hk2
          rw [getD_set_eq _ _ _ _ (by rw [hFlen]; omega)]
          rw [if_pos (by omega)]
          congr 1
          omega
        · rw [getD_set_ne _ _ _ _ _ (fun h => hk2 h.symm), hFget]
          split_ifs <;> first | rfl | omega | (exfalso; omega)

/-- Helper: pointwise value of `raised_cosine_weights`.  With
`ph = passband_half` and `t = transition_bins_`: transition values on
`[ph, ph + t)` and on the mirror `(n - ph - t, n - ph]`, ones on
`[0, ph)` and on the mirror `(n - ph, n)`, zero elsewhere. -/
theorem raised_cosine_getD (n : ℕ) (pb tb : Option ℕ)
    (heven : n % 2 = 0)
    (hpre : rc_passband_half n pb tb + rc_transition_bins n tb ≤ n / 2)
    (k : ℕ) (hk : k < n) :
    (raised_cosine_weights n pb tb).getD k 0 =
      if rc_passband_half n pb tb ≤ k ∧
          k < rc_passband_half n pb tb + rc_transition_bins n tb then
        0.5 + 0.5 * Real.cos (Real.pi *
          ((k - rc_passband_half n pb tb + 1 : ℕ) : ℝ)
          / ((rc_transition_bins n tb + 1 : ℕ) : ℝ))
      else if n - (rc_passband_half n pb tb + rc_transition_bins n tb) < k ∧
          k ≤ n - rc_passband_half n pb tb then
        0.5 + 0.5 * Real.cos (Real.pi *
          ((n - k - rc_passband_half n pb tb + 1 : ℕ) : ℝ)
          / ((rc_transition_bins n tb + 1 : ℕ) : ℝ))
      else if k < rc_passband_half n pb tb then 1
      else if n - rc_passband_half n pb tb < k then 1
      else 0 := by
  unfold raised_cosine_weights
  rw [rcTransitionLoop_eq_mirror, rcPassbandLoop_eq_mirror]
  have hlen1 : (mirrorWrites n 0 (fun _ => 1) (rc_passband_half n pb tb)
      (List.replicate n 0)).length = n := by
    rw [mirrorWrites_length]; simp
  rw [mirrorWrites_getD n (rc_passband_half n pb tb) _
      (rc_transition_bins n tb) _ hlen1 hpre heven k hk]
  rw [mirrorWrites_getD n 0 _ (rc_passband_half n pb tb) _ (by simp)
      (by omega) heven k hk]
  have hrep : (List.replicate n (0 : ℝ)).getD k 0 = (0 : ℝ) := by
    rw [getD_eq_get _ _ _ (by simpa using hk)]; simp
  rw [hrep]
  split_ifs <;> first | rfl | omega | (exfalso; omega)

/-- C7: for every positive even `ifft_size` and arguments satisfying
the precondition `passband_half + transition_bins <= ifft_size/2`, the
raised-cosine weights satisfy `weights[i] == weights[ifft_size - i]`
for `i ∈ [1, ifft_size)`, `weights[0] == 1`, and
`weights[ifft_size/2] == 0`. -/
theorem raised_cosine_symmetry (n : ℕ) (pb tb : Option ℕ)
    (heven : n % 2 = 0) (hpos : 0 < n)
    (hpre : rc_passband_half n pb tb + rc_transition_bins n tb ≤ n / 2)
    (i : ℕ) (hi1 : 1 ≤ i) (hi2 : i < n) :
    (raised_cosine_weights n pb tb).getD i 0 =
      (raised_cosine_weights n pb tb).getD (n - i) 0 ∧
    (raised_cosine_weights n pb tb).getD 0 0 = 1 ∧
    (raised_cosine_weights n pb tb).getD (n / 2) 0 = 0 := by
  have hph : 1 ≤ rc_passband_half n pb tb := by
    unfold rc_passband_half
    omega
  refine ⟨?_, ?_, ?_⟩
  · rw [raised_cosine_getD n pb tb heven hpre i hi2,
      raised_cosine_getD n pb tb heven hpre (n - i) (by omega)]
    split_ifs <;>
      first
        | rfl
        | omega
        | (exfalso; omega)
        | (rw [show n - (n - i) = i by omega])
  · rw [raised_cosine_getD n pb tb heven hpre 0 (by omega)]
    rw [if_neg (by omega), if_neg (by omega), if_pos (by omega)]
  · rw [raised_cosine_getD n pb tb heven hpre (n / 2) (by omega)]
    rw [if_neg (by omega), if_neg (by omega), if_neg (by omega),
      if_neg (by omega)]

/-- Closed-instance check for `raised_cosine_symmetry`. -/
theorem raised_cosine_symmetry_witness :
    (raised_cosine_weights 4 none (some 1)).getD 1 0 =
      (raised_cosine_weights 4 none (some 1)).getD (4 - 1) 0 ∧
    (raised_cosine_weights 4 none (some 1)).getD 0 0 = 1 ∧
    (raised_cosine_weights 4 none (some 1)).getD (4 / 2) 0 = 0 :=
  raised_cosine_symmetry 4 none (some 1) (by norm_num) (by norm_num)
    (by decide) 1 (by norm_num) (by norm_num)

/-- Helper: evaluated pointwise values of
`raised_cosine_weights 8 None (Some 1)`.  Here `transition_bins_ = 1`
and `passband_half = (8 - 2 - 2)/2 + 1 = 3`, so the passband ones land
at indices 0, 1, 2, 6, 7 and the single transition value
`0.5 + 0.5*cos(pi/2) = 0.5` lands at indices 3 and 5. -/
theorem raised_cosine_8_values (k : ℕ) (hk : k < 8) :
    (raised_cosine_weights 8 none (some 1)).getD k 0 =
      if k = 3 ∨ k = 5 then 0.5 else if k = 4 then 0 else 1 := by
  have hget := raised_cosine_getD 8 none (some 1) (by norm_num) (by decide)
    k hk
  have hph : rc_passband_half 8 none (some 1) = 3 := by decide
  have htr : rc_transition_bins 8 (some 1) = 1 := by decide
  rw [hph, htr] at hget
  have hcos : (0.5 : ℝ) + 0.5 * Real.cos (Real.pi * ((1 : ℕ) : ℝ)
      / (((1 : ℕ) + 1 : ℕ) : ℝ)) = 0.5 := by
    have h12 : Real.pi * ((1 : ℕ) : ℝ) / (((1 : ℕ) + 1 : ℕ) : ℝ)
        = Real.pi / 2 := by
      push_cast; ring
    rw [h12, Real.cos_pi_div_two]
    norm_num
  rw [hget]
  interval_cases k <;> norm_num

/-- C2 (counterexample): spec example E3 says
`raised_cosine(8, None, Some(1))` has `weights[2] == 0.5`, but the code
computes `passband_half = 3`, so `weights[2] == 1`. -/
theorem raised_cosine_example_counterexample :
    (raised_cosine_weights 8 none (some 1)).getD 2 0 ≠ 0.5 := by
  rw [raised_cosine_8_values 2 (by norm_num)]
  norm_num

/-- C2 (amended): `raised_cosine_weights(8, None, Some(1))` returns the
vector `[1, 1, 1, 0.5, 0, 0.5, 1, 1]`: `weights[0] == 1`,
`weights[1] == weights[7] == 1`, `weights[2] == weights[6] == 1`,
`weights[3] == weights[5] == 0.5`, and `weights[4] == 0`. -/
theorem raised_cosine_example_amended :
    (raised_cosine_weights 8 none (some 1)).length = 8 ∧
    (raised_cosine_weights 8 none (some 1)).getD 0 0 = 1 ∧
    (raised_cosine_weights 8 none (some 1)).getD 1 0 = 1 ∧
    (raised_cosine_weights 8 none (some 1)).getD 7 0 = 1 ∧
    (raised_cosine_weights 8 none (some 1)).getD 2 0 = 1 ∧
    (raised_cosine_weights 8 none (some 1)).getD 6 0 = 1 ∧
    (raised_cosine_weights 8 none (some 1)).getD 3 0 = 0.5 ∧
    (raised_cosine_weights 8 none (some 1)).getD 5 0 = 0.5 ∧
    (raised_cosine_weights 8 none (some 1)).getD 4 0 = 0 := by
  refine ⟨?_, ?_, ?_, ?_, ?_, ?_, ?_, ?_, ?_⟩
  · unfold raised_cosine_weights
    rw [rcTransitionLoop_eq_mirror, rcPassbandLoop_eq_mirror,
      mirrorWrites_length, mirrorWrites_length]
    simp
  all_goals rw [raised_cosine_8_values _ (by norm_num)] <;> norm_num

/-- One iteration of the error handling in the host receive loop of
`main`: a successful receive resets the consecutive error counter
(`error_count = 0`), a failed receive increments it
(`error_count += 1`). -/
def receive_step (ok : Bool) (error_count : ℕ) : ℕ :=
  if ok then 0 else error_count + 1

/-- The consecutive error counter after `n` receive attempts with
outcomes `outcomes 0, ..., outcomes (n-1)` (`true` = `Ok`). -/
def error_count_after (outcomes : ℕ → Bool) : ℕ → ℕ
  | 0 => 0
  | n + 1 => receive_step (outcomes n) (error_count_after outcomes n)

/-- Termination of the host receive loop: the loop breaks exactly when
the counter reaches 10 (`if error_count >= 10 { break }`), so it
terminates iff the counter ever reaches 10. -/
def main_loop_terminates (outcomes : ℕ → Bool) : Prop :=
  ∃ n, 10 ≤ error_count_after outcomes n

/-- Helper: a counter value of at least `c` means the last `c` receives
all failed. -/
theorem error_count_after_ge (outcomes : ℕ → Bool) :
    ∀ n c, c ≤ error_count_after outcomes n →
      c ≤ n ∧ ∀ j, j < c → outcomes (n - 1 - j) = false := by
  intro n
  induction n with
  | zero =>
      intro c hc
      simp [error_count_after] at hc
      subst hc
      exact ⟨by omega, fun j hj => by omega⟩
  | succ n ih =>
      intro c hc
      by_cases hok : outcomes n = true
      · simp [error_count_after, receive_step, hok] at hc
        subst hc
        exact ⟨by omega, fun j hj => by omega⟩
      · have hfalse : outcomes n = false := by
          simpa using hok
        simp [error_count_after, receive_step, hfalse] at hc
        rcases Nat.eq_zero_or_pos c with h0 | hcpos
        · subst h0
          exact ⟨by omega, fun j hj => by omega⟩
        · have hrec := ih (c - 1) (by omega)
          refine ⟨by omega, ?_⟩
          intro j hj
          rcases Nat.eq_zero_or_pos j with hj0 | hjpos
          · subst hj0
            simpa using hfalse
          · rw [show n + 1 - 1 - j = n - 1 - (j - 1) by omega]
            exact hrec.2 (j - 1) (by omega)

/-- Helper: `m` consecutive failures starting at `i` drive the counter
to at least `m`. -/
theorem error_count_after_of_consecutive (outcomes : ℕ → Bool) (i : ℕ) :
    ∀ m, (∀ j, j < m → outcomes (i + j) = false) →
      m ≤ error_count_after outcomes (i + m) := by
  intro m
  induction m with
  | zero => intro _; omega
  | succ m ih =>
      intro hf
      have h1 := ih (fun j hj => hf j (by omega))
      have h2 : outcomes (i + m) = false := hf m (by omega)
      rw [show i + (m + 1) = (i + m) + 1 by omega]
      simp [error_count_after, receive_step, h2]
      omega

/-- C9: each failed receive increments the consecutive-error counter,
any successful receive resets it to zero, and the host receive loop
terminates when and only when some 10 consecutive receives fail with no
intervening success. -/
theorem main_loop_termination (outcomes : ℕ → Bool) :
    (∀ c, receive_step true c = 0) ∧
    (∀ c, receive_step false c = c + 1) ∧
    (main_loop_terminates outcomes ↔
      ∃ i, ∀ j, j < 10 → outcomes (i + j) = false) := by
  refine ⟨fun c => rfl, fun c => rfl, ?_⟩
  constructor
  · rintro ⟨n, hn⟩
    have h := error_count_after_ge outcomes n 10 hn
    refine ⟨n - 10, ?_⟩
    intro j hj
    have h2 := h.2 (9 - j) (by omega)
    rw [show (n - 10) + j = n - 1 - (9 - j) by omega]
    exact h2
  · rintro ⟨i, hi⟩
    exact ⟨i + 10, error_count_after_of_consecutive outcomes i 10 hi⟩
